import Mathlib

/-!
Shallow embedding of the linear-transform core of this repository
(`nibabel/transform/linear.py`), together with theorems settling the
frozen claims about it.

Modelling conventions:
* numpy floating-point arrays are embedded as matrices/vectors over `ℚ`
  (exact arithmetic in place of IEEE doubles);
* the geometric operations are specialised to the 3-dimensional case the
  module is written for: homogeneous matrices are 4×4, grids are 3-D;
* `np.linalg.inv` is embedded as `minv` (inverse via determinant and
  adjugate, which agrees with Mathlib's `Matrix.inv` over a field);
* a Python `raise` is an `Except.error` / `Option.none` value;
* effectful serialization (`ndi.affine_transform`, HDF5 writes, text
  files) is embedded as the record of values handed to the external
  capability.
-/

namespace NB

abbrev Mat4 := Matrix (Fin 4) (Fin 4) ℚ

abbrev Mat3 := Matrix (Fin 3) (Fin 3) ℚ

/-- Embedding of `np.linalg.inv` for 4×4 matrices over the exact
rationals: the inverse computed from the determinant and the adjugate.
Over the field `ℚ` this agrees with Mathlib's `Matrix.inv` (see
`minv_eq_inv`); on a singular matrix it returns the zero matrix, a junk
value standing for numpy's `LinAlgError`. -/
def minv (A : Mat4) : Mat4 := A.det⁻¹ • A.adjugate

/-- `LPS = np.diag([-1, -1, 1, 1])` (linear.py, module level). -/
def LPS : Mat4 := Matrix.diagonal ![-1, -1, 1, 1]

/-- Modelled from the spec: the coordinate space of an image
(`CoordinateSpace` in §3; the `ImageSpace` class of `transform/base.py`
is not part of the excerpt).  It carries the voxel-to-physical `affine`
and the grid `shape`. -/
structure ImageSpace where
  affine : Mat4
  shape : Fin 3 → ℕ

/-- The `Affine` transform of `linear.py`, specialised to a single 4×4
matrix.  The `reference` field models the optional reference space owned
by `TransformBase` (not in the excerpt); per the spec (§3), accessing an
unset reference raises, which the `Option` with explicit `none` handling
reproduces at each use site. -/
structure Affine where
  matrix : Mat4
  reference : Option ImageSpace

/-- Append a homogeneous 1 to a 3-vector (`np.append(coords, [1])`). -/
def homVec (p : Fin 3 → ℚ) : Fin 4 → ℚ := Fin.snoc p 1

/-- Drop the last component of a 4-vector (`[:-1]`). -/
def dehomVec (v : Fin 4 → ℚ) : Fin 3 → ℚ := Fin.init v

/-- Top three rows of a 4×4 matrix (`matrix[:3, :]`). -/
def topRows (A : Mat4) : Matrix (Fin 3) (Fin 4) ℚ :=
  Matrix.of fun i j => A i.castSucc j

/-- Top-left 3×3 block of a 4×4 matrix (`matrix[:3, :3]`). -/
def linPart (A : Mat4) : Mat3 :=
  Matrix.of fun i j => A i.castSucc j.castSucc

/-- Last column of the top three rows (`matrix[:3, 3]`). -/
def transPart (A : Mat4) : Fin 3 → ℚ := fun i => A i.castSucc 3

/-- Read a length-4 list as a 4-vector. -/
def vecOfList (c : List ℚ) (h : c.length = 4) : Fin 4 → ℚ :=
  fun i => c.get (Fin.cast h.symm i)

/-- `Affine.map_point` (linear.py lines 133-138): append a homogeneous 1
when the input has one fewer entry than the matrix dimension, apply the
matrix (forward) or its numerical inverse, and drop the last entry.
In the inverse direction `np.linalg.inv` raises `LinAlgError` on a
singular matrix before the product is taken, embedded as `none`; inputs
whose (possibly extended) length is not 4 make `numpy` raise a
dimension-mismatch error, also embedded as `none`.  The reference space
is never consulted. -/
def Affine.map_point (x : Affine) (coords : List ℚ) (forward : Bool) :
    Option (List ℚ) :=
  let c := if coords.length = 3 then coords ++ [1] else coords
  if forward = false ∧ x.matrix.det = 0 then none
  else
    let A := if forward then x.matrix else minv x.matrix
    if h : c.length = 4 then
      some (List.ofFn (dehomVec (A.mulVec (vecOfList c h))))
    else none

/-- `Affine.map_voxel` (linear.py lines 140-159): resolve the reference
(falling back to `moving`) and `moving` (falling back to the reference);
raise when both are undefined; then apply
`reference.affine · matrix · inv(moving.affine)` to the homogeneous
index and return the de-homogenized coordinates. -/
def Affine.map_voxel (x : Affine) (index : Fin 3 → ℚ)
    (moving : Option ImageSpace) : Except String (Fin 3 → ℚ) :=
  match x.reference, moving with
  | none, none => Except.error ("Reference and moving spaces are both undefined")
  | some ref, some mov =>
      Except.ok (dehomVec ((ref.affine * (x.matrix * minv mov.affine)).mulVec
        (homVec index)))
  | some ref, none =>
      Except.ok (dehomVec ((ref.affine * (x.matrix * minv ref.affine)).mulVec
        (homVec index)))
  | none, some mov =>
      Except.ok (dehomVec ((mov.affine * (x.matrix * minv mov.affine)).mulVec
        (homVec index)))

/-- The argument record of the one call `Affine.resample` makes to the
external resampler `scipy.ndimage.affine_transform` (for a 3-D moving
data array, so `mdata.ndim = 3`). -/
structure NdiCall where
  matrix : Mat3
  offset : Fin 3 → ℚ
  output_shape : Fin 3 → ℕ
  order : ℕ
  mode : String
  cval : ℚ
  prefilter : Bool
  deriving DecidableEq

/-- `Affine.resample` (linear.py lines 109-131), restricted to the
invocation of the external resampler: resolve the reference (falling
back to the moving image's own space, with a warning), compose the
index-to-index matrix `inv(moving.affine) · matrix · reference.affine`,
and hand the resampler its 3×3 block, its last column, the reference
shape and the interpolation arguments unchanged. -/
def Affine.resample (x : Affine) (moving : ImageSpace) (order : ℕ)
    (mode : String) (cval : ℚ) (prefilter : Bool) : NdiCall :=
  let reference := x.reference.getD moving
  let matrix := minv moving.affine * (x.matrix * reference.affine)
  { matrix := linPart matrix
    offset := transPart matrix
    output_shape := reference.shape
    order := order
    mode := mode
    cval := cval
    prefilter := prefilter }

/-- The datasets `Affine._to_hdf5` writes into the native (X5 / HDF5)
group. -/
structure X5Group where
  transform : Matrix (Fin 3) (Fin 4) ℚ
  inverse : Matrix (Fin 3) (Fin 4) ℚ
  type : String
  reference : Option ImageSpace

/-- `Affine._to_hdf5` (linear.py lines 161-167): write the top three
rows of the matrix as `Transform`, the top three rows of its numerical
inverse as `Inverse`, the literal `Type` value, and the reference group
when one is attached. -/
def Affine.to_hdf5 (x : Affine) : X5Group :=
  { transform := topRows x.matrix
    inverse := topRows (minv x.matrix)
    type := "affine"
    reference := x.reference }

/-- The 12-entry parameter list of the ITK-family branch of
`Affine.to_filename` (linear.py lines 173-175):
`LPS.dot(matrix.dot(LPS))`, its top-left 3×3 block flattened row-major
(`[:3, :3].reshape(-1)`), followed by its translation column
(`[:3, 3]`). -/
def itkParams (M : Mat4) : List ℚ :=
  let parameters := LPS * (M * LPS)
  (List.ofFn fun i : Fin 3 =>
      List.ofFn fun j : Fin 3 => parameters i.castSucc j.castSucc).flatten
    ++ List.ofFn fun i : Fin 3 => parameters i.castSucc 3

/-- The ITK-family text file written by `Affine.to_filename`
(linear.py lines 176-183): five lines, the fourth carrying the 12
parameters rendered by the numeral formatter (`%g` in the source) and
joined with single spaces.  The formatter itself is an external
capability and is passed in as `render`. -/
def itkLines (render : ℚ → String) (M : Mat4) : List String :=
  [ "#Insight Transform File V1.0"
  , "#Transform 0"
  , "Transform: MatrixOffsetTransformBase_double_3_3"
  , "Parameters: " ++ String.intercalate (" ") ((itkParams M).map render)
  , "FixedParameters: 0 0 0" ]

/-- Modelled from the spec: `from_matvec` of `nibabel.affines` (imported
by linear.py but not part of the excerpt) embeds a 3×3 block `A` and a
translation column `v` into the homogeneous 4×4 matrix whose last row is
`(0, 0, 0, 1)` (spec §4.2 and glossary, "Homogeneous matrix"). -/
def from_matvec (A : Mat3) (v : Fin 3 → ℚ) : Mat4 :=
  Matrix.of fun i j =>
    if hi : (i : ℕ) < 3 then
      if hj : (j : ℕ) < 3 then A ⟨i, hi⟩ ⟨j, hj⟩ else v ⟨i, hi⟩
    else
      if (j : ℕ) < 3 then 0 else 1

/-- The ITK-family branch of `load` (linear.py lines 221-231), after the
text layer: from the numbers of the `Parameters:` line and of the
`FixedParameters:` line, rebuild the matrix
`LPS · (T(+offset) · (M · (T(-offset) · LPS)))` and construct the
transform with the explicitly supplied reference.  When the parameter
count is not 12 the source leaves `matrix` unbound and crashes, embedded
as `none`. -/
def itk_load (parameters : List ℚ) (offset : Fin 3 → ℚ)
    (reference : Option ImageSpace) : Option Affine :=
  if parameters.length = 12 then
    let lin : Mat3 := Matrix.of fun i j =>
      parameters.getD (3 * (i : ℕ) + (j : ℕ)) 0
    let trans : Fin 3 → ℚ := fun i => parameters.getD (9 + (i : ℕ)) 0
    let matrix := from_matvec lin trans
    let c_neg := from_matvec 1 (fun i => offset i * (-1))
    let c_pos := from_matvec 1 offset
    some { matrix := LPS * (c_pos * (matrix * (c_neg * LPS)))
           reference := reference }
  else none

/-- `_fsl_aff_adapt` (linear.py lines 242-252): from a space, build the
swap matrix `swp` (the identity, except that when `det(affine) > 0` the
first axis is flipped and offset by `(shape[0] - 1) * zooms[0]`) and the
diagonal zoom matrix `spc`.  The voxel sizes come from
`nibabel.affines.voxel_sizes`, which is not part of the excerpt; the
spec (§4.2) fixes only that they form the diagonal of `spc`, so the
capability is passed in as `vs`. -/
def fsl_aff_adapt (vs : Mat4 → Fin 3 → ℚ) (space : ImageSpace) :
    Mat4 × Mat4 :=
  let zooms := vs space.affine
  let swp : Mat4 :=
    if 0 < space.affine.det then
      Matrix.of fun i j =>
        if i = 0 ∧ j = 0 then -1
        else if i = 0 ∧ j = 3 then ((space.shape 0 : ℚ) - 1) * zooms 0
        else (1 : Mat4) i j
    else 1
  (swp, Matrix.diagonal (Fin.snoc zooms 1))

/-- The FSL branch of `Affine.to_filename` (linear.py lines 194-214):
resolve `moving` (falling back to the reference), adapt both spaces with
`_fsl_aff_adapt`, compose
`pre = ref.affine · inv(refspc) · inv(refswp)` and
`post = inv(movswp) · movspc · inv(moving.affine)`, and write
`inv(post · matrix · pre)`.  An unset reference makes the source raise,
embedded as `none`. -/
def Affine.to_fsl (vs : Mat4 → Fin 3 → ℚ) (x : Affine)
    (moving : Option ImageSpace) : Option Mat4 :=
  match x.reference with
  | none => none
  | some ref =>
      let mov := moving.getD ref
      let refPair := fsl_aff_adapt vs ref
      let pre := ref.affine * (minv refPair.2 * minv refPair.1)
      let movPair := fsl_aff_adapt vs mov
      let post := minv movPair.1 * (movPair.2 * minv mov.affine)
      some (minv (post * (x.matrix * pre)))

/-- A rough model of a `numpy` ndarray: its shape and its row-major
flattened entries. -/
structure PyArray where
  shape : List ℕ
  data : List ℚ
  deriving DecidableEq

/-- The default `np.eye(4)` array of `Affine.__init__`. -/
def eye4Arr : PyArray :=
  { shape := [4, 4]
    data := List.ofFn fun k : Fin 16 => if k / 4 = k % 4 then 1 else 0 }

/-- `Affine.__init__` (linear.py lines 27-59): default the matrix to
`np.eye(4)`, then assert that the array is 2-D or 3-D and that its
leading two axes agree; the accepted array is stored unchanged and is
what the `matrix` property returns. -/
def affine_init (matrix : Option PyArray) : Except String PyArray :=
  let m := matrix.getD eye4Arr
  if m.shape.length = 2 ∨ m.shape.length = 3 then
    if m.shape[0]? = m.shape[1]? then Except.ok m
    else Except.error ("affine matrix is not square")
  else Except.error ("affine matrix should be 2D or 3D")

/-- The axis-0 flip matrix `_fsl_aff_adapt` produces for a space whose
affine has positive determinant and unit voxel sizes: the first axis is
negated and offset by `shape[0] - 1`. -/
def swpFlip (s : ℕ) : Mat4 :=
  Matrix.of fun i j =>
    if i = 0 ∧ j = 0 then -1
    else if i = 0 ∧ j = 3 then (s : ℚ) - 1
    else (1 : Mat4) i j

/-- Concrete example space: identity affine, 3×3×3 grid. -/
def spId : ImageSpace := { affine := 1, shape := fun _ => 3 }

/-- Concrete example space: identity affine, singleton grid. -/
def spCk : ImageSpace := { affine := 1, shape := fun _ => 1 }

/-- Concrete voxel-sizes capability returning unit zooms everywhere
(the value `nibabel.affines.voxel_sizes` takes on an identity affine). -/
def vsOne : Mat4 → Fin 3 → ℚ := fun _ _ => 1

/-- Concrete homogeneous translation by one unit along the first axis. -/
def MckT : Mat4 := !![1, 0, 0, 1; 0, 1, 0, 0; 0, 0, 1, 0; 0, 0, 0, 1]

/-- Concrete homogeneous translation by minus one unit along the first
axis, the inverse of `MckT`. -/
def NckT : Mat4 := !![1, 0, 0, -1; 0, 1, 0, 0; 0, 0, 1, 0; 0, 0, 0, 1]

/-- Concrete invertible matrix whose last row is not `(0, 0, 0, 1)`. -/
def MckH : Mat4 := !![1, 0, 0, 1; 0, 1, 0, 0; 0, 0, 1, 0; 0, 0, 0, 2]

/-- The inverse of `MckH`. -/
def NckH : Mat4 :=
  !![1, 0, 0, -(1/2); 0, 1, 0, 0; 0, 0, 1, 0; 0, 0, 0, (1/2)]

/-- Concrete singular 4×4 matrix with homogeneous last row
`(0, 0, 0, 1)` (zero linear block). -/
def ZsingM : Mat4 := !![0, 0, 0, 0; 0, 0, 0, 0; 0, 0, 0, 0; 0, 0, 0, 1]

/-- `ZsingM` as a flat row-major 4×4 array (accepted by the
constructor). -/
def arrZsing : PyArray :=
  { shape := [4, 4], data := List.replicate 15 0 ++ [1] }

/-- Concrete 3×4 array (non-square leading axes). -/
def arr34 : PyArray := { shape := [3, 4], data := List.replicate 12 0 }

/-- Concrete 1-D array. -/
def arr1d : PyArray := { shape := [4], data := List.replicate 4 0 }

/-- Concrete 4-D array. -/
def arr4d : PyArray := { shape := [2, 2, 2, 2], data := List.replicate 16 0 }

/-! ## Helper lemmas -/

theorem minv_eq_inv (A : Mat4) : minv A = A⁻¹ := by
  rw [Matrix.inv_def, minv, Ring.inverse_eq_inv]

theorem minv_eq_of {A B : Mat4} (h : A * B = 1) : minv A = B := by
  rw [minv_eq_inv]; exact Matrix.inv_eq_right_inv h

theorem minv_one : minv 1 = 1 := minv_eq_of (one_mul 1)

theorem ofFn_append_single (p : Fin 3 → ℚ) (z : ℚ) :
    List.ofFn p ++ [z] = List.ofFn (Fin.snoc p z) := by
  rw [List.ofFn_succ' (Fin.snoc p z)]
  simp [Fin.snoc_castSucc, Fin.snoc_last, List.concat_eq_append]

theorem vecOfList_ofFn (q : Fin 4 → ℚ) (h : (List.ofFn q).length = 4) :
    vecOfList (List.ofFn q) h = q := by
  funext i
  fin_cases i <;> rfl

theorem vecOfList_ofFn_append (p : Fin 3 → ℚ) (z : ℚ)
    (h : (List.ofFn p ++ [z]).length = 4) :
    vecOfList (List.ofFn p ++ [z]) h = Fin.snoc p z := by
  funext i
  fin_cases i <;> rfl

theorem mulVec_last (M : Mat4) (v : Fin 4 → ℚ)
    (hrow : M 3 = ![0, 0, 0, 1]) :
    (M.mulVec v) (Fin.last 3) = v 3 := by
  show (M.mulVec v) 3 = v 3
  simp [Matrix.mulVec, Matrix.dotProduct, Fin.sum_univ_four, hrow]

theorem LPS_mul_LPS : LPS * LPS = 1 := by
  rw [LPS, Matrix.diagonal_mul_diagonal]
  have h : (fun i => (![-1, -1, 1, 1] : Fin 4 → ℚ) i * ![-1, -1, 1, 1] i) =
      fun _ => (1 : ℚ) := by
    funext i
    fin_cases i <;> norm_num
  rw [h, Matrix.diagonal_one]

theorem LPS_unconj (M : Mat4) : LPS * ((LPS * (M * LPS)) * LPS) = M := by
  rw [← mul_assoc LPS (LPS * (M * LPS)) LPS,
    ← mul_assoc LPS LPS (M * LPS), LPS_mul_LPS, one_mul, mul_assoc,
    LPS_mul_LPS, mul_one]

theorem LPS_conj_last_row (M : Mat4) (hrow : M 3 = ![0, 0, 0, 1]) :
    (LPS * (M * LPS)) 3 = ![0, 0, 0, 1] := by
  funext j
  fin_cases j <;>
    simp [LPS, Matrix.mul_apply, Fin.sum_univ_four, Matrix.diagonal, hrow,
      Matrix.vecHead, Matrix.vecTail]

theorem from_matvec_parts (P : Mat4) (hrow : P 3 = ![0, 0, 0, 1]) :
    from_matvec (linPart P) (transPart P) = P := by
  funext i j
  rcases i with ⟨iv, hiv⟩
  rcases j with ⟨jv, hjv⟩
  simp only [from_matvec, linPart, transPart, Matrix.of_apply]
  by_cases hi : iv < 3
  · by_cases hj : jv < 3
    · rw [dif_pos hi, dif_pos hj]
      rfl
    · have hj3 : jv = 3 := by omega
      subst hj3
      rw [dif_pos hi, dif_neg hj]
      rfl
  · have hi3 : iv = 3 := by omega
    subst hi3
    rw [dif_neg hi]
    have h3 : (⟨3, hiv⟩ : Fin 4) = 3 := rfl
    rw [h3, hrow]
    by_cases hj : jv < 3
    · rw [if_pos hj]
      interval_cases jv <;> rfl
    · have hj3 : jv = 3 := by omega
      subst hj3
      rw [if_neg hj]
      rfl

theorem from_matvec_one_zero : from_matvec 1 (fun _ => 0) = 1 := by
  funext i j
  rcases i with ⟨iv, hiv⟩
  rcases j with ⟨jv, hjv⟩
  simp only [from_matvec, Matrix.of_apply, Matrix.one_apply, Fin.mk.injEq]
  split_ifs <;> simp_all [Matrix.one_apply, Fin.mk.injEq] <;> omega

theorem itkParams_eq (M : Mat4) :
    itkParams M =
      [(LPS * (M * LPS)) 0 0, (LPS * (M * LPS)) 0 1, (LPS * (M * LPS)) 0 2,
       (LPS * (M * LPS)) 1 0, (LPS * (M * LPS)) 1 1, (LPS * (M * LPS)) 1 2,
       (LPS * (M * LPS)) 2 0, (LPS * (M * LPS)) 2 1, (LPS * (M * LPS)) 2 2,
       (LPS * (M * LPS)) 0 3, (LPS * (M * LPS)) 1 3,
       (LPS * (M * LPS)) 2 3] := rfl

theorem snoc_one_const :
    (Fin.snoc (fun _ : Fin 3 => (1 : ℚ)) 1 : Fin 4 → ℚ) = fun _ => 1 := by
  funext i
  refine Fin.lastCases ?_ (fun j => ?_) i
  · rw [Fin.snoc_last]
  · rw [Fin.snoc_castSucc]

theorem swpFlip_mul_self (s : ℕ) : swpFlip s * swpFlip s = 1 := by
  ext i j
  fin_cases i <;> fin_cases j <;>
    simp [swpFlip, Matrix.mul_apply, Fin.sum_univ_four, Matrix.one_apply]

theorem minv_swpFlip (s : ℕ) : minv (swpFlip s) = swpFlip s :=
  minv_eq_of (swpFlip_mul_self s)

theorem fsl_aff_adapt_identity (vs : Mat4 → Fin 3 → ℚ) (sp : ImageSpace)
    (ha : sp.affine = 1) (hv : vs 1 = fun _ => 1) :
    fsl_aff_adapt vs sp = (swpFlip (sp.shape 0), 1) := by
  simp only [fsl_aff_adapt, ha, hv, Matrix.det_one, zero_lt_one, if_true,
    snoc_one_const, Matrix.diagonal_one, mul_one, Prod.mk.injEq]
  exact ⟨rfl, trivial⟩

theorem minv_swp_sandwich (A : Mat4) (r s : ℕ) :
    minv (swpFlip s * (A * swpFlip r)) = swpFlip r * A⁻¹ * swpFlip s := by
  rw [minv_eq_inv, Matrix.mul_inv_rev, Matrix.mul_inv_rev,
    Matrix.inv_eq_right_inv (swpFlip_mul_self r),
    Matrix.inv_eq_right_inv (swpFlip_mul_self s)]

theorem map_point_ofFn_fwd (x : Affine) (p : Fin 3 → ℚ) :
    x.map_point (List.ofFn p) true =
      some (List.ofFn (dehomVec (x.matrix.mulVec (homVec p)))) := by
  simp [Affine.map_point, vecOfList_ofFn_append, homVec]

theorem map_point_ofFn_inv (x : Affine) (p : Fin 3 → ℚ)
    (hdet : x.matrix.det ≠ 0) :
    x.map_point (List.ofFn p) false =
      some (List.ofFn (dehomVec ((minv x.matrix).mulVec (homVec p)))) := by
  simp [Affine.map_point, vecOfList_ofFn_append, homVec, hdet]

/-! ## Claim theorems -/

/-- C1: for every moving image and every `Affine` transform with a
resolved reference space, `resample` builds the voxel-to-voxel matrix
`inverse(moving.affine) · matrix · reference.affine` and invokes the
external resampler with that matrix's 3×3 linear block and its
translation column separately, with `reference.shape` as the output
shape, and with the given `order`, `mode`, `cval` and `prefilter`
arguments passed through unchanged. -/
theorem C1_resample_builds_voxel_matrix (x : Affine)
    (moving ref : ImageSpace) (order : ℕ) (mode : String) (cval : ℚ)
    (prefilter : Bool) (h : x.reference = some ref) :
    x.resample moving order mode cval prefilter =
      { matrix := linPart (moving.affine⁻¹ * x.matrix * ref.affine)
        offset := transPart (moving.affine⁻¹ * x.matrix * ref.affine)
        output_shape := ref.shape
        order := order
        mode := mode
        cval := cval
        prefilter := prefilter } := by
  simp [Affine.resample, h, minv_eq_inv, mul_assoc]

/-- Witness for C1 at a concrete transform and image. -/
theorem C1_witness :
    Affine.resample { matrix := MckT, reference := some spId } spId 3
        ("constant") 0 true =
      { matrix := linPart (spId.affine⁻¹ * MckT * spId.affine)
        offset := transPart (spId.affine⁻¹ * MckT * spId.affine)
        output_shape := spId.shape
        order := 3
        mode := "constant"
        cval := 0
        prefilter := true } :=
  C1_resample_builds_voxel_matrix _ spId spId 3 ("constant") 0 true rfl

/-- C2: for every `Affine` transform with a resolved reference space and
a resolved moving space (`moving` falling back to the reference when
omitted), `map_voxel` composes
`reference.affine · matrix · inverse(moving.affine)`, applies it to the
homogeneous-extended index, and returns the de-homogenized result
unrounded. -/
theorem C2_map_voxel_composition (x : Affine) (ref : ImageSpace)
    (moving : Option ImageSpace) (index : Fin 3 → ℚ)
    (h : x.reference = some ref) :
    x.map_voxel index moving =
      Except.ok (dehomVec
        ((ref.affine * x.matrix * ((moving.getD ref).affine)⁻¹).mulVec
          (homVec index))) := by
  cases moving <;> simp [Affine.map_voxel, h, minv_eq_inv, mul_assoc]

/-- Witness for C2 at a concrete transform and index. -/
theorem C2_witness :
    Affine.map_voxel { matrix := MckT, reference := some spId } ![1, 2, 3]
        none =
      Except.ok (dehomVec
        ((spId.affine * MckT * (spId.affine)⁻¹).mulVec
          (homVec ![1, 2, 3]))) :=
  C2_map_voxel_composition _ spId none ![1, 2, 3] rfl

/-- C7: for every `Affine` transform with no reference space attached,
`map_voxel` called with `moving = None` raises the unresolved-reference
error rather than returning a value. -/
theorem C7_map_voxel_unresolved (x : Affine) (index : Fin 3 → ℚ)
    (h : x.reference = none) :
    x.map_voxel index none =
      Except.error ("Reference and moving spaces are both undefined") := by
  simp [Affine.map_voxel, h]

/-- Witness for C7 at a concrete transform. -/
theorem C7_witness :
    Affine.map_voxel { matrix := MckT, reference := none } ![0, 0, 0]
        none =
      Except.error ("Reference and moving spaces are both undefined") :=
  C7_map_voxel_unresolved _ ![0, 0, 0] rfl

/-- C8: serializing to the native (HDF5-like) format writes a
`Transform` dataset equal to the top three rows `matrix[:3, :]`, an
`Inverse` dataset equal to `inverse(matrix)[:3, :]` (for the true
inverse, exhibited by a right-inverse `B`), and the literal `Type`
value "affine". -/
theorem C8_to_hdf5_contents (x : Affine) (B : Mat4)
    (hB : x.matrix * B = 1) :
    x.to_hdf5 =
      { transform := topRows x.matrix
        inverse := topRows B
        type := "affine"
        reference := x.reference } := by
  simp [Affine.to_hdf5, minv_eq_of hB]

/-- Witness for C8 at a concrete transform. -/
theorem C8_witness :
    Affine.to_hdf5 { matrix := MckT, reference := none } =
      { transform := topRows MckT
        inverse := topRows NckT
        type := "affine"
        reference := none } :=
  C8_to_hdf5_contents _ NckT (by
    ext i j
    fin_cases i <;> fin_cases j <;>
      simp [MckT, NckT, Matrix.mul_apply, Fin.sum_univ_four,
        Matrix.one_apply, Matrix.vecHead, Matrix.vecTail])

/-- C10 as stated is false: `map_point` indeed never consults the
reference, but it does not always return a result in the inverse
direction.  The singular matrix `ZsingM` (homogeneous last row, zero
linear block) is accepted by the constructor, and on the length-3 input
`(0, 0, 0)` the forward direction succeeds while the inverse direction
raises `np.linalg.inv`'s `LinAlgError` (linear.py line 137) rather than
returning a value. -/
theorem C10_counterexample :
    affine_init (some arrZsing) = Except.ok arrZsing
    ∧ ZsingM 3 = ![0, 0, 0, 1]
    ∧ Affine.map_point { matrix := ZsingM, reference := none } [0, 0, 0]
        true = some [0, 0, 0]
    ∧ Affine.map_point { matrix := ZsingM, reference := none } [0, 0, 0]
        false = none := by
  have hdz : ZsingM.det = 0 := by
    simp [ZsingM, Matrix.det_succ_row_zero, Fin.sum_univ_succ]
  refine ⟨rfl, by decide, ?_, ?_⟩
  · rw [show ([0, 0, 0] : List ℚ) = List.ofFn ![0, 0, 0] from rfl,
      map_point_ofFn_fwd]
    have hh : homVec ![0, 0, 0] = ![0, 0, 0, 1] := by decide
    have hmv : ZsingM.mulVec ![0, 0, 0, 1] = ![0, 0, 0, 1] := by
      funext i
      fin_cases i <;>
        simp [ZsingM, Matrix.mulVec, Matrix.dotProduct, Fin.sum_univ_four]
    have hdh : dehomVec ![0, 0, 0, 1] = ![0, 0, 0] := by
      funext i
      fin_cases i <;> rfl
    simp [hh, hmv, hdh, List.ofFn_succ]
  · simp [Affine.map_point, hdz]

/-- C10 amended: `map_point` never consults the reference space — its
value does not depend on the reference field and it never raises the
unresolved-reference condition.  On coordinate vectors of length 3 or 4
it returns a result even when no reference is attached, in the forward
direction always and in the inverse direction whenever the matrix is
invertible (a singular matrix makes the external inversion raise
`LinAlgError` in the inverse direction, still not the
unresolved-reference condition). -/
theorem C10_amended_map_point_no_reference (M : Mat4)
    (r₁ r₂ : Option ImageSpace) (coords : List ℚ) (forward : Bool)
    (h : coords.length = 3 ∨ coords.length = 4)
    (hinv : forward = true ∨ M.det ≠ 0) :
    Affine.map_point { matrix := M, reference := r₁ } coords forward =
      Affine.map_point { matrix := M, reference := r₂ } coords forward
    ∧ (Affine.map_point { matrix := M, reference := r₁ } coords
        forward).isSome = true := by
  refine ⟨rfl, ?_⟩
  rcases hinv with hf | hd
  · subst hf
    rcases h with h3 | h4
    · simp [Affine.map_point, h3]
    · have h3 : ¬coords.length = 3 := by omega
      simp [Affine.map_point, h3, h4]
  · rcases h with h3 | h4
    · simp [Affine.map_point, h3, hd]
    · have h3 : ¬coords.length = 3 := by omega
      simp [Affine.map_point, h3, h4, hd]

/-- C5 as stated is false: for the invertible matrix `MckH`, whose last
row is `(0, 0, 0, 2)`, mapping the point `(0, 0, 0)` forward and back
through `map_point` returns `(1/2, 0, 0)`, not the original point (the
forward result is truncated to length 3 and re-extended with a
homogeneous 1, which loses the last component `2`). -/
theorem C5_counterexample :
    (MckH * NckH = 1 ∧ NckH * MckH = 1)
    ∧ Affine.map_point { matrix := MckH, reference := none } [0, 0, 0]
        true = some [1, 0, 0]
    ∧ Affine.map_point { matrix := MckH, reference := none } [1, 0, 0]
        false = some [(1 : ℚ)/2, 0, 0]
    ∧ ([(1 : ℚ)/2, 0, 0] : List ℚ) ≠ [0, 0, 0] := by
  have hMN : MckH * NckH = 1 := by
    ext i j
    fin_cases i <;> fin_cases j <;>
      simp [MckH, NckH, Matrix.mul_apply, Fin.sum_univ_four,
        Matrix.one_apply, Matrix.vecHead, Matrix.vecTail]
  have hNM : NckH * MckH = 1 := by
    ext i j
    fin_cases i <;> fin_cases j <;>
      simp [MckH, NckH, Matrix.mul_apply, Fin.sum_univ_four,
        Matrix.one_apply, Matrix.vecHead, Matrix.vecTail]
  have hdH : MckH.det ≠ 0 := by
    have h1 : MckH.det * NckH.det = 1 := by
      rw [← Matrix.det_mul, hMN, Matrix.det_one]
    exact left_ne_zero_of_mul_eq_one h1
  refine ⟨⟨hMN, hNM⟩, ?_, ?_, by norm_num⟩
  · rw [show ([0, 0, 0] : List ℚ) = List.ofFn ![0, 0, 0] from rfl,
      map_point_ofFn_fwd]
    have hh : homVec ![0, 0, 0] = ![0, 0, 0, 1] := by decide
    have hmv : MckH.mulVec ![0, 0, 0, 1] = ![1, 0, 0, 2] := by
      funext i
      fin_cases i <;>
        simp [MckH, Matrix.mulVec, Matrix.dotProduct, Fin.sum_univ_four]
    have hdh : dehomVec ![1, 0, 0, 2] = ![1, 0, 0] := by
      funext i
      fin_cases i <;> rfl
    simp [hh, hmv, hdh, List.ofFn_succ]
  · rw [show ([1, 0, 0] : List ℚ) = List.ofFn ![1, 0, 0] from rfl]
    refine (map_point_ofFn_inv { matrix := MckH, reference := none }
      ![1, 0, 0] hdH).trans ?_
    have hh : homVec ![1, 0, 0] = ![1, 0, 0, 1] := by decide
    have hmv : NckH.mulVec ![1, 0, 0, 1] = ![(1 : ℚ)/2, 0, 0, (1 : ℚ)/2] := by
      funext i
      fin_cases i <;>
        simp [NckH, Matrix.mulVec, Matrix.dotProduct, Fin.sum_univ_four]
          <;> norm_num
    have hdh : dehomVec ![(1 : ℚ)/2, 0, 0, (1 : ℚ)/2] =
        ![(1 : ℚ)/2, 0, 0] := by
      funext i
      fin_cases i <;> rfl
    simp [minv_eq_of hMN, hh, hmv, hdh, List.ofFn_succ]
    exact ⟨rfl, rfl, rfl⟩

/-- C5 amended: the round trip holds for every invertible 4×4 matrix
whose last row is the homogeneous row `(0, 0, 0, 1)` (the form the data
model prescribes for a transform matrix): mapping any point forward and
then backward with `map_point` returns the original point exactly. -/
theorem C5_amended_roundtrip (M : Mat4) (r : Option ImageSpace)
    (p : Fin 3 → ℚ) (hdet : IsUnit M.det) (hrow : M 3 = ![0, 0, 0, 1]) :
    ∃ q : List ℚ,
      Affine.map_point { matrix := M, reference := r } (List.ofFn p)
        true = some q
      ∧ Affine.map_point { matrix := M, reference := r } q false =
          some (List.ofFn p) := by
  refine ⟨List.ofFn (dehomVec (M.mulVec (homVec p))), ?_, ?_⟩
  · simpa using map_point_ofFn_fwd { matrix := M, reference := r } p
  · rw [map_point_ofFn_inv _ _ hdet.ne_zero]
    have h3 : homVec p 3 = 1 := by
      simp [homVec, show (3 : Fin 4) = Fin.last 3 from rfl]
    have hw : (M.mulVec (homVec p)) (Fin.last 3) = 1 := by
      rw [mulVec_last M _ hrow, h3]
    have hhd : homVec (dehomVec (M.mulVec (homVec p))) =
        M.mulVec (homVec p) := by
      have hs : homVec (dehomVec (M.mulVec (homVec p))) =
          Fin.snoc (Fin.init (M.mulVec (homVec p)))
            ((M.mulVec (homVec p)) (Fin.last 3)) := by
        rw [hw]; rfl
      rw [hs, Fin.snoc_init_self]
    show some (List.ofFn (dehomVec ((minv M).mulVec
        (homVec (dehomVec (M.mulVec (homVec p))))))) = some (List.ofFn p)
    rw [hhd, Matrix.mulVec_mulVec, minv_eq_inv,
      Matrix.nonsing_inv_mul M hdet, Matrix.one_mulVec]
    simp [homVec, dehomVec, Fin.init_snoc]

/-- Witness for the amended C5 at the identity matrix and a concrete
point. -/
theorem C5_witness :
    ∃ q : List ℚ,
      Affine.map_point { matrix := 1, reference := none }
        (List.ofFn ![5, 6, 7]) true = some q
      ∧ Affine.map_point { matrix := 1, reference := none } q false =
          some (List.ofFn ![5, 6, 7]) :=
  C5_amended_roundtrip 1 none ![5, 6, 7]
    (by simp [Matrix.det_one]) (by decide)

/-- Witness for the amended C10 at a concrete invertible matrix and
coordinate vector, in the inverse direction, with and without a
reference attached. -/
theorem C10_witness :
    (Affine.map_point { matrix := MckT, reference := none } [1, 2, 3]
        false =
      Affine.map_point { matrix := MckT, reference := some spId }
        [1, 2, 3] false)
    ∧ (Affine.map_point { matrix := MckT, reference := none } [1, 2, 3]
        false).isSome = true :=
  C10_amended_map_point_no_reference MckT none (some spId) [1, 2, 3] false
    (Or.inl rfl)
    (Or.inr (by simp [MckT, Matrix.det_succ_row_zero, Fin.sum_univ_succ]))

/-- C3: serializing an `Affine` transform (a homogeneous matrix, last
row `(0, 0, 0, 1)`) to the ITK text format and reloading the produced
parameters with an explicitly supplied reference space reproduces the
original matrix.  Numeric text formatting is embedded exactly (over
`ℚ`), so the reproduction is exact and in particular within the
6-significant-digit `%g` tolerance the claim allows. -/
theorem C3_itk_roundtrip (M : Mat4) (ref : ImageSpace)
    (hrow : M 3 = ![0, 0, 0, 1]) :
    itk_load (itkParams M) ![0, 0, 0] (some ref) =
      some { matrix := M, reference := some ref } := by
  have hlen : (itkParams M).length = 12 := by rw [itkParams_eq]; rfl
  have hoff : from_matvec 1 (![0, 0, 0] : Fin 3 → ℚ) = 1 := by
    have h0 : (![0, 0, 0] : Fin 3 → ℚ) = fun _ => 0 := by
      funext t
      fin_cases t <;> rfl
    rw [h0, from_matvec_one_zero]
  have hoffneg :
      from_matvec 1 (fun t => (![0, 0, 0] : Fin 3 → ℚ) t * (-1)) = 1 := by
    have h0 : (fun t => (![0, 0, 0] : Fin 3 → ℚ) t * (-1)) =
        fun _ => (0 : ℚ) := by
      funext t
      fin_cases t <;> norm_num
    rw [h0, from_matvec_one_zero]
  have hlin : (Matrix.of fun i j : Fin 3 =>
      (itkParams M).getD (3 * (i : ℕ) + (j : ℕ)) 0) =
      linPart (LPS * (M * LPS)) := by
    funext i j
    fin_cases i <;> fin_cases j <;> rw [itkParams_eq] <;> rfl
  have htrans : (fun i : Fin 3 => (itkParams M).getD (9 + (i : ℕ)) 0) =
      transPart (LPS * (M * LPS)) := by
    funext i
    fin_cases i <;> rw [itkParams_eq] <;> rfl
  simp only [itk_load, hlen, if_true, hlin, htrans, hoff, hoffneg,
    from_matvec_parts (LPS * (M * LPS)) (LPS_conj_last_row M hrow),
    one_mul, LPS_unconj]

/-- Witness for C3 at the identity transform. -/
theorem C3_witness :
    itk_load (itkParams 1) ![0, 0, 0] (some spId) =
      some { matrix := 1, reference := some spId } :=
  C3_itk_roundtrip 1 spId (by decide)

/-- C9: the ITK-family export writes the matrix conjugated by the LPS
sign-flip matrix as a `Parameters` line of 12 rendered numbers — the
3×3 linear block flattened row-major followed by the 3 translation
components — in a 5-line file whose last line is
"FixedParameters: 0 0 0". -/
theorem C9_itk_file_layout (render : ℚ → String) (M : Mat4) :
    itkLines render M =
      [ "#Insight Transform File V1.0"
      , "#Transform 0"
      , "Transform: MatrixOffsetTransformBase_double_3_3"
      , "Parameters: " ++ String.intercalate (" ") (List.map render
          [(LPS * M * LPS) 0 0, (LPS * M * LPS) 0 1, (LPS * M * LPS) 0 2,
           (LPS * M * LPS) 1 0, (LPS * M * LPS) 1 1, (LPS * M * LPS) 1 2,
           (LPS * M * LPS) 2 0, (LPS * M * LPS) 2 1, (LPS * M * LPS) 2 2,
           (LPS * M * LPS) 0 3, (LPS * M * LPS) 1 3, (LPS * M * LPS) 2 3])
      , "FixedParameters: 0 0 0" ]
    ∧ (itkLines render M).length = 5
    ∧ (itkLines render M).getLast? = some ("FixedParameters: 0 0 0") := by
  refine ⟨?_, rfl, rfl⟩
  simp only [mul_assoc]
  rfl

/-- C6: constructing an `Affine` transform from an array that is 2-D or
3-D with equal leading axes succeeds and stores the array unchanged (the
`matrix` property returns it exactly, with no normalization); any other
array is rejected with a validation error. -/
theorem C6_constructor_validation :
    (∀ a : PyArray,
      ((a.shape.length = 2 ∨ a.shape.length = 3) ∧
        a.shape[0]? = a.shape[1]?) →
      affine_init (some a) = Except.ok a)
    ∧ (∀ a : PyArray,
      ¬((a.shape.length = 2 ∨ a.shape.length = 3) ∧
        a.shape[0]? = a.shape[1]?) →
      ∃ msg, affine_init (some a) = Except.error msg)
    ∧ (∀ a b : PyArray, affine_init (some a) = Except.ok b → b = a) := by
  refine ⟨?_, ?_, ?_⟩
  · rintro a ⟨h1, h2⟩
    simp [affine_init, h1, h2]
  · intro a h
    by_cases h1 : a.shape.length = 2 ∨ a.shape.length = 3
    · have h2 : ¬a.shape[0]? = a.shape[1]? := fun h2 => h ⟨h1, h2⟩
      exact ⟨"affine matrix is not square", by simp [affine_init, h1, h2]⟩
    · exact ⟨"affine matrix should be 2D or 3D", by simp [affine_init, h1]⟩
  · intro a b h
    by_cases h1 : a.shape.length = 2 ∨ a.shape.length = 3
    · by_cases h2 : a.shape[0]? = a.shape[1]?
      · simp [affine_init, h1, h2] at h
        exact h.symm
      · simp [affine_init, h1, h2] at h
    · simp [affine_init, h1] at h

/-- Witness for C6: the default `np.eye(4)` array is accepted and passed
through unchanged, while 3×4, 1-D and 4-D arrays are each rejected. -/
theorem C6_witness :
    affine_init (some eye4Arr) = Except.ok eye4Arr
    ∧ (∃ msg, affine_init (some arr34) = Except.error msg)
    ∧ (∃ msg, affine_init (some arr1d) = Except.error msg)
    ∧ (∃ msg, affine_init (some arr4d) = Except.error msg) :=
  ⟨C6_constructor_validation.1 eye4Arr (by decide),
   C6_constructor_validation.2.1 arr34 (by decide),
   C6_constructor_validation.2.1 arr1d (by decide),
   C6_constructor_validation.2.1 arr4d (by decide)⟩

/-- C4 as stated is false: with reference and moving spaces both having
identity affines, the determinant of the affine is `1 > 0`, so
`_fsl_aff_adapt` takes the axis-flip branch and the swap matrices do NOT
reduce to the identity.  At the concrete unit-translation transform
`MckT` (with singleton grids, whose swap matrix is `diag(-1,1,1,1)`),
the FSL export writes `MckT` itself, not `inverse(MckT) = NckT`. -/
theorem C4_counterexample :
    Affine.to_fsl vsOne { matrix := MckT, reference := some spCk }
        (some spCk) = some MckT
    ∧ minv MckT = NckT
    ∧ some MckT ≠ some NckT
    ∧ spCk.affine = 1
    ∧ vsOne 1 = fun _ => 1 := by
  have hMN : MckT * NckT = 1 := by
    ext i j
    fin_cases i <;> fin_cases j <;>
      simp [MckT, NckT, Matrix.mul_apply, Fin.sum_univ_four,
        Matrix.one_apply, Matrix.vecHead, Matrix.vecTail]
  have hNM : NckT * MckT = 1 := by
    ext i j
    fin_cases i <;> fin_cases j <;>
      simp [MckT, NckT, Matrix.mul_apply, Fin.sum_univ_four,
        Matrix.one_apply, Matrix.vecHead, Matrix.vecTail]
  have hK : swpFlip 1 * (MckT * swpFlip 1) = NckT := by
    ext i j
    fin_cases i <;> fin_cases j <;>
      simp [swpFlip, MckT, NckT, Matrix.mul_apply, Fin.sum_univ_four,
        Matrix.one_apply, Matrix.vecHead, Matrix.vecTail] <;> decide
  have hne : MckT ≠ NckT := by decide
  refine ⟨?_, minv_eq_of hMN, by simpa using hne, rfl, rfl⟩
  simp only [Affine.to_fsl, Option.getD_some,
    fsl_aff_adapt_identity vsOne spCk rfl rfl,
    (show spCk.affine = 1 from rfl), (show spCk.shape 0 = 1 from rfl),
    minv_one, minv_swpFlip, one_mul, mul_one]
  rw [hK, minv_eq_of hNM]

/-- C4 amended: for reference and moving spaces with identity affines
(and unit voxel sizes, as an identity affine has), the `spc` zoom
matrices reduce to the identity but the swap matrices take the axis-0
flip branch (`det(identity) = 1 > 0`), and the FSL export writes
`refswp · inverse(matrix) · movswp`, with `swp` the flip offset by
`shape[0] - 1`. -/
theorem C4_amended_fsl_identity_affines (vs : Mat4 → Fin 3 → ℚ)
    (x : Affine) (ref mov : ImageSpace) (h : x.reference = some ref)
    (hr : ref.affine = 1) (hm : mov.affine = 1)
    (hv : vs 1 = fun _ => 1) (hdet : IsUnit x.matrix.det) :
    x.to_fsl vs (some mov) =
      some (swpFlip (ref.shape 0) * x.matrix⁻¹ * swpFlip (mov.shape 0)) := by
  simp only [Affine.to_fsl, h, Option.getD_some,
    fsl_aff_adapt_identity vs ref hr hv, fsl_aff_adapt_identity vs mov hm hv,
    minv_one, one_mul, mul_one, minv_swpFlip, hr, hm, minv_swp_sandwich]

/-- Witness for the amended C4 at a concrete transform and spaces. -/
theorem C4_witness :
    Affine.to_fsl vsOne { matrix := MckT, reference := some spId }
        (some spCk) =
      some (swpFlip (spId.shape 0) * MckT⁻¹ * swpFlip (spCk.shape 0)) :=
  C4_amended_fsl_identity_affines vsOne _ spId spCk rfl rfl rfl rfl
    (by simp [MckT, Matrix.det_succ_row_zero, Fin.sum_univ_succ])

end NB

